import Mathlib

/-!
Verification of the SpeccyNextTools BASIC codec (txt2bas / bas2txt).

Byte sequences are modelled as `List Nat` with every element a byte value
(0..255); source text is likewise a list of its ASCII byte values, obtained
from Lean string literals via `strB`.  The C++ loops that walk an index
through a buffer are modelled as structural recursion on an explicit fuel
argument; the top-level entry points pass the buffer length as fuel, which
is always sufficient because every iteration of each C++ loop consumes at
least one byte.
-/

set_option maxRecDepth 1000000

namespace SpeccyNext

/-! ## ASCII character classification (C locale, as used via `<cctype>`) -/

/-- C `isdigit` on a byte. -/
def isDigitB (b : Nat) : Bool := 48 ≤ b && b ≤ 57

/-- ASCII uppercase letter test. -/
def isUpperB (b : Nat) : Bool := 65 ≤ b && b ≤ 90

/-- ASCII lowercase letter test. -/
def isLowerB (b : Nat) : Bool := 97 ≤ b && b ≤ 122

/-- C `isalpha` on a byte. -/
def isAlphaB (b : Nat) : Bool := isUpperB b || isLowerB b

/-- C `isalnum` on a byte. -/
def isAlnumB (b : Nat) : Bool := isAlphaB b || isDigitB b

/-- C `toupper` on a byte (C locale: only a..z move). -/
def toUpperB (b : Nat) : Nat := if isLowerB b then b - 32 else b

/-- C `tolower` on a byte (C locale: only A..Z move). -/
def toLowerB (b : Nat) : Nat := if isUpperB b then b + 32 else b

/-- C `isspace` on a byte (the set used by `istream` extraction and
`std::regex` `\s`): space, tab, newline, vertical tab, form feed, carriage
return. -/
def isWsB (b : Nat) : Bool := b == 32 || (9 ≤ b && b ≤ 13)

/-- The byte values of a (pure ASCII) Lean string literal. -/
def strB (s : String) : List Nat := s.toList.map Char.toNat

/-! ## TokenMap (txt2bas.cpp, `TokenMap::TokenMap`)

The keyword → byte map, entries written in the source's insertion order. -/

def tokenList : List (String × Nat) :=
  [("PEEK$", 0x87), ("REG", 0x88), ("DPOKE", 0x89), ("DPEEK", 0x8A),
   ("MOD", 0x8B), ("<<", 0x8C), (">>", 0x8D), ("UNTIL", 0x8E),
   ("ERROR", 0x8F), ("ON", 0x90), ("DEFPROC", 0x91), ("ENDPROC", 0x92),
   ("PROC", 0x93), ("LOCAL", 0x94), ("DRIVER", 0x95), ("WHILE", 0x96),
   ("REPEAT", 0x97), ("ELSE", 0x98), ("REMOUNT", 0x99), ("BANK", 0x9A),
   ("TILE", 0x9B), ("LAYER", 0x9C), ("PALETTE", 0x9D), ("SPRITE", 0x9E),
   ("PWD", 0x9F), ("CD", 0xA0), ("MKDIR", 0xA1), ("RMDIR", 0xA2),
   ("SPECTRUM", 0xA3), ("PLAY", 0xA4), ("RND", 0xA5), ("INKEY$", 0xA6),
   ("PI", 0xA7), ("FN", 0xA8), ("POINT", 0xA9), ("SCREEN$", 0xAA),
   ("ATTR", 0xAB), ("AT", 0xAC), ("TAB", 0xAD), ("VAL$", 0xAE),
   ("CODE", 0xAF), ("VAL", 0xB0), ("LEN", 0xB1), ("SIN", 0xB2),
   ("COS", 0xB3), ("TAN", 0xB4), ("ASN", 0xB5), ("ACS", 0xB6),
   ("ATN", 0xB7), ("LN", 0xB8), ("EXP", 0xB9), ("INT", 0xBA),
   ("SQR", 0xBB), ("SGN", 0xBC), ("ABS", 0xBD), ("PEEK", 0xBE),
   ("IN", 0xBF), ("USR", 0xC0), ("STR$", 0xC1), ("CHR$", 0xC2),
   ("NOT", 0xC3), ("BIN", 0xC4), ("OR", 0xC5), ("AND", 0xC6),
   ("<=", 0xC7), (">=", 0xC8), ("<>", 0xC9), ("LINE", 0xCA),
   ("THEN", 0xCB), ("TO", 0xCC), ("STEP", 0xCD), ("DEF FN", 0xCE),
   ("CAT", 0xCF), ("FORMAT", 0xD0), ("MOVE", 0xD1), ("ERASE", 0xD2),
   ("OPEN #", 0xD3), ("CLOSE #", 0xD4), ("MERGE", 0xD5), ("VERIFY", 0xD6),
   ("BEEP", 0xD7), ("CIRCLE", 0xD8), ("INK", 0xD9), ("PAPER", 0xDA),
   ("FLASH", 0xDB), ("BRIGHT", 0xDC), ("INVERSE", 0xDD), ("OVER", 0xDE),
   ("OUT", 0xDF), ("LPRINT", 0xE0), ("LLIST", 0xE1), ("STOP", 0xE2),
   ("READ", 0xE3), ("DATA", 0xE4), ("RESTORE", 0xE5), ("NEW", 0xE6),
   ("BORDER", 0xE7), ("CONTINUE", 0xE8), ("DIM", 0xE9), ("REM", 0xEA),
   ("FOR", 0xEB), ("GO TO", 0xEC), ("GOTO", 0xEC), ("GO SUB", 0xED),
   ("GOSUB", 0xED), ("INPUT", 0xEE), ("LOAD", 0xEF), ("LIST", 0xF0),
   ("LET", 0xF1), ("PAUSE", 0xF2), ("NEXT", 0xF3), ("POKE", 0xF4),
   ("PRINT", 0xF5), ("PLOT", 0xF6), ("RUN", 0xF7), ("SAVE", 0xF8),
   ("RANDOMIZE", 0xF9), ("IF", 0xFA), ("CLS", 0xFB), ("DRAW", 0xFC),
   ("CLEAR", 0xFD), ("RETURN", 0xFE), ("COPY", 0xFF)]

/-- The map with keys converted to byte lists. -/
def tokenKeyed : List (List Nat × Nat) := tokenList.map fun p => (strB p.1, p.2)

/-- `_tokenMap.Map[k]`: keyword lookup (always hit for keys of the table). -/
def lookupCode (kb : List Nat) : Nat := (tokenKeyed.lookup kb).getD 0

/-- Insert a key into a length-descending list (`BasConverter::BasConverter`
sorts `_sortedKeys` with comparator `a.length() > b.length()`; the order among
keys of equal length is unspecified in the source and does not affect
tokenization, because at most one key of a given length can case-insensitively
match at a given position). -/
def insertByLenDesc (k : List Nat) : List (List Nat) → List (List Nat)
  | [] => [k]
  | h :: t => if h.length < k.length then k :: h :: t else h :: insertByLenDesc k t

/-- `_sortedKeys`: the token keywords sorted by length, longest first. -/
def sortedKeys : List (List Nat) :=
  (tokenList.map fun p => strB p.1).foldr insertByLenDesc []

/-- `CaseInsensitiveEquals`: equal length and bytewise equal after `toupper`. -/
def ciEqB (a b : List Nat) : Bool := a.map toUpperB == b.map toUpperB

/-! ## Plus3Dos::CreateHeader (txt2bas.cpp lines 18-59)

`basicLength` is a `Nat` (the caller passes `data.size()`); `autoStartLine`
is an `Int` (the C++ member is an `int` that a `#autostart` directive can set
to any parsed value, including negatives). -/

/-- Bytes 0..126 of the header: signature, soft EOF, issue, version, 32-bit
total size, type, 16-bit data length, autostart (sentinel 32768 unless the
argument is in `[0, 32768)`), 16-bit data length again, zero padding. -/
def CreateHeaderBody (basicLength : Nat) (autoStartLine : Int) : List Nat :=
  let total := basicLength + 128
  let auto : List Nat :=
    if 0 ≤ autoStartLine ∧ autoStartLine < 32768 then
      [autoStartLine.toNat % 256, autoStartLine.toNat / 256 % 256]
    else
      [32768 % 256, 32768 / 256 % 256]
  strB "PLUS3DOS" ++ [0x1A, 0x01, 0x00] ++
    [total % 256, total / 2 ^ 8 % 256, total / 2 ^ 16 % 256, total / 2 ^ 24 % 256] ++
    [0x00] ++
    [basicLength % 256, basicLength / 256 % 256] ++
    auto ++
    [basicLength % 256, basicLength / 256 % 256] ++
    List.replicate 105 0

/-- The 128-byte header: the 127 body bytes followed by their sum mod 256. -/
def CreateHeader (basicLength : Nat) (autoStartLine : Int) : List Nat :=
  CreateHeaderBody basicLength autoStartLine ++
    [(CreateHeaderBody basicLength autoStartLine).sum % 256]

/-! ## SinclairNumber::Pack (txt2bas.cpp lines 62-74)

The parsed numeric value is modelled as an exact rational.  The C++ `double`
and the rational agree on every literal the claims and the fast path care
about; `modf(number, &intPart) == 0.0` is integrality, i.e. `q.den = 1`. -/

def Pack (q : ℚ) : List Nat :=
  if q.den = 1 ∧ -65535 ≤ q ∧ q ≤ 65535 then
    let v : ℤ := q.num
    let sign : Nat := if v < 0 then 0xFF else 0x00
    let m : Nat := v.natAbs
    [0x00, sign, m % 256, m / 2 ^ 8 % 256, 0x00]
  else [0, 0, 0, 0, 0]

/-- Value of a list of ASCII digit bytes, most significant first. -/
def digitsVal (l : List Nat) : Nat := l.foldl (fun a d => 10 * a + (d - 48)) 0

/-- `std::stod` restricted to the strings the number scanner can hand it: a
run of digits and dots that starts with a digit, or with a dot followed by a
digit.  `stod` parses the longest valid floating prefix — leading digits, then
at most one dot and the digits after it; a second dot stops the parse. -/
def parseStodQ (run : List Nat) : ℚ :=
  let intPart := digitsVal (run.takeWhile isDigitB)
  match run.dropWhile isDigitB with
  | 46 :: t =>
      let fr := t.takeWhile isDigitB
      (intPart : ℚ) + (digitsVal fr : ℚ) / (10 : ℚ) ^ fr.length
  | _ => (intPart : ℚ)

/-! ## BasConverter::ParseLine (txt2bas.cpp lines 178-260)

The keyword-matching step of the scan.  `prevOk` is the value of
`(i == 0) || !std::isalpha(text[i - 1])` at the current position and `s` is
the text from the current position on; the loop scans `_sortedKeys` and
returns the first key that matches (case-insensitively, with the word
boundary check for keys that start with a letter).  The `0 < kb.length`
conjunct is vacuous — every key of the table is nonempty — and only makes
the byte consumption visible to the termination argument. -/

def tryToken (prevOk : Bool) (s : List Nat) : Option (List Nat) :=
  sortedKeys.findSome? fun kb =>
    if kb.length ≤ s.length ∧ 0 < kb.length then
      if ciEqB (s.take kb.length) kb then
        let nextOk : Bool :=
          match (s.drop kb.length).head? with
          | none => true
          | some nc => !isAlnumB nc
        if isAlphaB kb.headI && (!prevOk || !nextOk) then none
        else some kb
      else none
    else none

/-- A hit of `List.findSome?` comes from some element of the list. -/
theorem exists_of_findSome? {α β : Type} {f : α → Option β} {l : List α} {b : β}
    (h : l.findSome? f = some b) : ∃ a ∈ l, f a = some b := by
  induction l with
  | nil => simp [List.findSome?] at h
  | cons x t ih =>
      rw [List.findSome?] at h
      revert h
      cases hx : f x with
      | some v => intro h; cases h; exact ⟨x, List.mem_cons_self _ _, hx⟩
      | none =>
          intro h
          rcases ih h with ⟨a, ha, hfa⟩
          exact ⟨a, List.mem_cons_of_mem _ ha, hfa⟩

/-- A successful `tryToken` returns one of the (nonempty, no longer than the
remaining text) table keys. -/
theorem tryToken_spec {p : Bool} {s kb : List Nat} (h : tryToken p s = some kb) :
    kb ∈ sortedKeys ∧ 0 < kb.length ∧ kb.length ≤ s.length := by
  rcases exists_of_findSome? h with ⟨a, ha, hfa⟩
  by_cases h1 : a.length ≤ s.length ∧ 0 < a.length
  · rw [if_pos h1] at hfa
    by_cases h2 : ciEqB (s.take a.length) a = true
    · rw [if_pos h2] at hfa
      simp only [] at hfa
      split at hfa
      · exact absurd hfa (by simp)
      · cases hfa; exact ⟨ha, h1.2, h1.1⟩
    · rw [if_neg h2] at hfa; exact absurd hfa (by simp)
  · rw [if_neg h1] at hfa; exact absurd hfa (by simp)

/-- One pass of the character loop of `ParseLine` (txt2bas.cpp lines
180-245), as structural recursion on fuel.  `prev` is the byte before the
current position (`none` at the start of the text); the branches are, in
source order: string literals, numeric literals, keyword tokens (with the
`REM` special case and the trailing-space skip), and the raw-byte fallback.
Note the source has no handling for `;` comments. -/
def encodeGo : Nat → Option Nat → List Nat → List Nat
  | 0, _, _ => []
  | _, _, [] => []
  | fuel + 1, prev, c :: rest =>
    if c == 34 then
      match rest.findIdx? (fun x => x == 34) with
      | none => c :: rest
      | some d => (c :: rest.take (d + 1)) ++ encodeGo fuel (some 34) (rest.drop (d + 1))
    else if isDigitB c || (c == 46 && (match rest.head? with
                                       | some n => isDigitB n
                                       | none => false)) then
      let run := (c :: rest).takeWhile fun x => isDigitB x || x == 46
      run ++ 14 :: Pack (parseStodQ run) ++
        encodeGo fuel (some (run.getLastD 0)) ((c :: rest).drop run.length)
    else
      let prevOk : Bool := match prev with
                           | none => true
                           | some p => !isAlphaB p
      match tryToken prevOk (c :: rest) with
      | some kb =>
          let code := lookupCode kb
          if code == 0xEA then
            code :: (c :: rest).drop kb.length
          else
            let after := (c :: rest).drop kb.length
            let rest2 := after.dropWhile fun x => x == 32
            let prev2 : Option Nat :=
              if rest2.length < after.length then some 32 else some (kb.getLastD 0)
            code :: encodeGo fuel prev2 rest2
      | none => c :: encodeGo fuel (some c) rest

/-- The tokenized bytes of one line, terminator included: `lineData` of
`ParseLine` just before the line record is assembled. -/
def LineBody (text : List Nat) : List Nat :=
  encodeGo text.length none text ++ [13]

/-- `BasConverter::ParseLine`: the full line record
`[lineNum hi][lineNum lo][len lo][len hi][data...]`. -/
def ParseLine (lineNum : Nat) (text : List Nat) : List Nat :=
  let lineData := LineBody text
  [lineNum / 2 ^ 8 % 256, lineNum % 256, lineData.length % 256, lineData.length / 2 ^ 8 % 256] ++
    lineData

/-! ## BasConverter::ConvertFile (txt2bas.cpp lines 132-176)

The per-line processing, folded over the input lines.  The state carries
`currentLineNum` (the running default line number, initially 10),
`AutoStartLine` (initially 32768) and the output bytes accumulated so far. -/

/-- The whitespace trim at the top of the loop: both `erase` calls use the
set `" \t\r\n"`. -/
def isTrimB (b : Nat) : Bool := b == 32 || b == 9 || b == 13 || b == 10

/-- Trim leading and trailing `" \t\r\n"` bytes. -/
def trimB (l : List Nat) : List Nat :=
  ((l.dropWhile isTrimB).reverse.dropWhile isTrimB).reverse

/-- Whitespace-delimited tokens, as `istringstream` extraction produces
them: skip `isspace` bytes, then take a maximal run of non-space bytes. -/
def wsGo : Nat → List Nat → List (List Nat)
  | 0, _ => []
  | fuel + 1, l =>
      let l1 := l.dropWhile isWsB
      match l1 with
      | [] => []
      | _ :: _ =>
          l1.takeWhile (fun b => !isWsB b) :: wsGo fuel (l1.dropWhile fun b => !isWsB b)

/-- All whitespace-delimited tokens of a line. -/
def wsTokens (l : List Nat) : List (List Nat) := wsGo l.length l

/-- `istream >> int` applied to a whitespace-delimited token: an optional
sign, then at least one decimal digit (trailing junk is left unread and does
not cause failure); overflow beyond the 32-bit `int` range sets the fail
bit (C++11 semantics), modelled as `none`. -/
def readIntTok (t : List Nat) : Option Int :=
  let signed : Int × List Nat :=
    match t with
    | 45 :: r => (-1, r)
    | 43 :: r => (1, r)
    | _ => (1, t)
  let ds := signed.2.takeWhile isDigitB
  if ds = [] then none
  else
    let v : Int := signed.1 * digitsVal ds
    if v < -2147483648 ∨ 2147483647 < v then none else some v

/-- One iteration of the `getline` loop of `ConvertFile`: state is
`(currentLineNum, AutoStartLine, output)`. -/
def ConvertStep (st : Nat × Int × List Nat) (line : List Nat) : Nat × Int × List Nat :=
  let t := trimB line
  if t = [] then st
  else if t.headI = 35 then
    -- directive: `#autostart <N>` updates AutoStartLine, all other `#` lines
    -- are comments; either way the line produces no record
    if (t.map toLowerB).take 10 = strB "#autostart" then
      match (wsTokens t).get? 1 with
      | none => st
      | some tok =>
          match readIntTok tok with
          | none => st
          | some v => (st.1, v, st.2.2)
    else st
  else
    -- `^(\d+)\s+(.*)`: an explicit line number is a nonempty digit run
    -- followed by at least one whitespace byte
    let ds := t.takeWhile isDigitB
    let explicitNum : Bool :=
      !ds.isEmpty && (match (t.drop ds.length).head? with
                      | some c => isWsB c
                      | none => false)
    if explicitNum then
      let n := digitsVal ds
      let rest := (t.drop ds.length).dropWhile isWsB
      (n + 10, st.2.1, st.2.2 ++ ParseLine n rest)
    else
      (st.1 + 10, st.2.1, st.2.2 ++ ParseLine st.1 t)

/-- The whole `ConvertFile` loop over a list of input lines, from the
initial state (`currentLineNum = 10`, `AutoStartLine = 32768`). -/
def ConvertLines (lines : List (List Nat)) : Nat × Int × List Nat :=
  lines.foldl ConvertStep (10, 32768, [])

/-! ## ReverseTokenMap (bas2txt.cpp, `ReverseTokenMap::ReverseTokenMap`) -/

def revTokens : List (Nat × String) :=
  [(0x87, "PEEK$"), (0x88, "REG"), (0x89, "DPOKE"), (0x8A, "DPEEK"),
   (0x8B, "MOD"), (0x8C, "<<"), (0x8D, ">>"), (0x8E, "UNTIL"),
   (0x8F, "ERROR"), (0x90, "ON"), (0x91, "DEFPROC"), (0x92, "ENDPROC"),
   (0x93, "PROC"), (0x94, "LOCAL"), (0x95, "DRIVER"), (0x96, "WHILE"),
   (0x97, "REPEAT"), (0x98, "ELSE"), (0x99, "REMOUNT"), (0x9A, "BANK"),
   (0x9B, "TILE"), (0x9C, "LAYER"), (0x9D, "PALETTE"), (0x9E, "SPRITE"),
   (0x9F, "PWD"), (0xA0, "CD"), (0xA1, "MKDIR"), (0xA2, "RMDIR"),
   (0xA3, "SPECTRUM"), (0xA4, "PLAY"), (0xA5, "RND"), (0xA6, "INKEY$"),
   (0xA7, "PI"), (0xA8, "FN"), (0xA9, "POINT"), (0xAA, "SCREEN$"),
   (0xAB, "ATTR"), (0xAC, "AT"), (0xAD, "TAB"), (0xAE, "VAL$"),
   (0xAF, "CODE"), (0xB0, "VAL"), (0xB1, "LEN"), (0xB2, "SIN"),
   (0xB3, "COS"), (0xB4, "TAN"), (0xB5, "ASN"), (0xB6, "ACS"),
   (0xB7, "ATN"), (0xB8, "LN"), (0xB9, "EXP"), (0xBA, "INT"),
   (0xBB, "SQR"), (0xBC, "SGN"), (0xBD, "ABS"), (0xBE, "PEEK"),
   (0xBF, "IN"), (0xC0, "USR"), (0xC1, "STR$"), (0xC2, "CHR$"),
   (0xC3, "NOT"), (0xC4, "BIN"), (0xC5, "OR"), (0xC6, "AND"),
   (0xC7, "<="), (0xC8, ">="), (0xC9, "<>"), (0xCA, "LINE"),
   (0xCB, "THEN"), (0xCC, "TO"), (0xCD, "STEP"), (0xCE, "DEF FN"),
   (0xCF, "CAT"), (0xD0, "FORMAT"), (0xD1, "MOVE"), (0xD2, "ERASE"),
   (0xD3, "OPEN #"), (0xD4, "CLOSE #"), (0xD5, "MERGE"), (0xD6, "VERIFY"),
   (0xD7, "BEEP"), (0xD8, "CIRCLE"), (0xD9, "INK"), (0xDA, "PAPER"),
   (0xDB, "FLASH"), (0xDC, "BRIGHT"), (0xDD, "INVERSE"), (0xDE, "OVER"),
   (0xDF, "OUT"), (0xE0, "LPRINT"), (0xE1, "LLIST"), (0xE2, "STOP"),
   (0xE3, "READ"), (0xE4, "DATA"), (0xE5, "RESTORE"), (0xE6, "NEW"),
   (0xE7, "BORDER"), (0xE8, "CONTINUE"), (0xE9, "DIM"), (0xEA, "REM"),
   (0xEB, "FOR"), (0xEC, "GO TO"), (0xED, "GO SUB"), (0xEE, "INPUT"),
   (0xEF, "LOAD"), (0xF0, "LIST"), (0xF1, "LET"), (0xF2, "PAUSE"),
   (0xF3, "NEXT"), (0xF4, "POKE"), (0xF5, "PRINT"), (0xF6, "PLOT"),
   (0xF7, "RUN"), (0xF8, "SAVE"), (0xF9, "RANDOMIZE"), (0xFA, "IF"),
   (0xFB, "CLS"), (0xFC, "DRAW"), (0xFD, "CLEAR"), (0xFE, "RETURN"),
   (0xFF, "COPY")]

/-- The reverse map with canonical spellings as byte lists. -/
def revKeyed : List (Nat × List Nat) := revTokens.map fun p => (p.1, strB p.2)

/-- `_reverseTokenMap.Map.find(b)`. -/
def revLookup (b : Nat) : Option (List Nat) := revKeyed.lookup b

/-! ## BasParser::DecodeLineData (bas2txt.cpp lines 180-220) -/

/-- The smart spacing test on the byte after a token (bas2txt.cpp lines
197-206): within the line, below 128, not the hidden-number marker, and
alphanumeric, `"`, or `.`. -/
def smartSpace : Option Nat → Bool
  | none => false
  | some nb => nb < 128 && !(nb == 14) && (isAlnumB nb || nb == 34 || nb == 46)

/-- The byte loop of `DecodeLineData`, as structural recursion on fuel:
0x0E skips the next five bytes, a token byte becomes the canonical keyword
text plus a possible smart space, printable ASCII is copied, 0x7F becomes
the UTF-8 copyright glyph, anything else is dropped. -/
def decodeGo : Nat → List Nat → List Nat
  | 0, _ => []
  | _, [] => []
  | fuel + 1, b :: rest =>
    if b == 14 then decodeGo fuel (rest.drop 5)
    else
      match revLookup b with
      | some w => w ++ (if smartSpace rest.head? then [32] else []) ++ decodeGo fuel rest
      | none =>
          if 32 ≤ b && b ≤ 126 then b :: decodeGo fuel rest
          else if b == 127 then 0xC2 :: 0xA9 :: decodeGo fuel rest
          else decodeGo fuel rest

/-- `BasParser::DecodeLineData` on a byte slice. -/
def DecodeLineData (l : List Nat) : List Nat := decodeGo l.length l

/-! ## BasParser::Parse (bas2txt.cpp lines 137-178) -/

/-- Decimal ASCII digits of a natural number (`stringstream << int` for the
non-negative values that occur), via fuel-guarded division. -/
def digitsGo : Nat → Nat → List Nat
  | 0, n => [n % 10 + 48]
  | fuel + 1, n => if n < 10 then [n + 48] else digitsGo fuel (n / 10) ++ [n % 10 + 48]

/-- Decimal ASCII representation of a natural number. -/
def natDigits (n : Nat) : List Nat := digitsGo n n

/-- The declared record length of the line record starting a buffer suffix:
2 bytes little-endian at offsets 2 and 3. -/
def declLen (d : List Nat) : Nat := d.getD 2 0 + 256 * d.getD 3 0

/-- The line number of the line record starting a buffer suffix: 2 bytes
big-endian at offsets 0 and 1. -/
def recLineNum (d : List Nat) : Nat := 256 * d.getD 0 0 + d.getD 1 0

/-- The record-reading loop of `Parse` (bas2txt.cpp lines 157-175), acting
on the suffix of the buffer from the read cursor on: stop when fewer than 4
bytes remain or the declared length overruns the buffer; otherwise emit
`<lineNumber> <decoded line>\n` and advance by the 4 header bytes plus the
declared length. -/
def parseGo : Nat → List Nat → List Nat
  | 0, _ => []
  | fuel + 1, d =>
    if d.length < 4 then []
    else
      let len := declLen d
      if len - 1 > d.length - 4 then []
      else
        natDigits (recLineNum d) ++ 32 :: DecodeLineData ((d.drop 4).take (len - 1)) ++
          10 :: parseGo fuel (d.drop (4 + len))

/-- The record-reading loop started on a buffer suffix. -/
def ParseRecords (d : List Nat) : List Nat := parseGo d.length d

/-- `BasParser::Parse`: optional +3DOS header detection (signature
`PLUS3DOS`, or legacy prefix `ZXPLUS3`, on buffers of at least 128 bytes;
an autostart field other than 32768 emits a `#autostart` line and the
cursor skips the 128-byte header), then the record loop. -/
def Parse (data : List Nat) : List Nat :=
  let hdr : List Nat × Nat :=
    if 128 ≤ data.length ∧
       ((data.take 8 = strB "PLUS3DOS") ∨ ((data.take 8).take 7 = strB "ZXPLUS3")) then
      let autoSt := data.getD 18 0 + 256 * data.getD 19 0
      (if autoSt ≠ 32768 then strB "#autostart " ++ natDigits autoSt ++ [10] else [], 128)
    else ([], 0)
  hdr.1 ++ ParseRecords (data.drop hdr.2)

/-! ## Helper lemmas -/

/-- `getD` at the length of the left part of an append. -/
theorem getD_append_len {α : Type} (l l' : List α) (d : α) :
    (l ++ l').getD l.length d = l'.getD 0 d := by
  induction l with
  | nil => rfl
  | cons x t ih => simpa using ih

/-- The header body has exactly 127 bytes. -/
theorem CreateHeaderBody_length (l : Nat) (a : Int) :
    (CreateHeaderBody l a).length = 127 := by
  rw [CreateHeaderBody]
  split <;> rfl

/-! ## Claim C4 -/

/-- C4: for every data length and autostart argument, byte 127 of the
produced header is the sum of bytes 0..126 modulo 256. -/
theorem c4_header_checksum (l : Nat) (a : Int) :
    (CreateHeader l a).getD 127 0 = ((CreateHeader l a).take 127).sum % 256 := by
  rw [CreateHeader, ← CreateHeaderBody_length l a, getD_append_len, List.take_left]
  rfl

/-! ## Claim C9 -/

/-- C9: every autostart argument outside `[0, 32767]` — negative or at least
32768, including the default 32768 — makes the header store the sentinel
32768: byte 0x00 at offset 18 and byte 0x80 at offset 19. -/
theorem c9_autostart_sentinel (l : Nat) (a : Int) (h : a < 0 ∨ 32768 ≤ a) :
    (CreateHeader l a).getD 18 0 = 0x00 ∧ (CreateHeader l a).getD 19 0 = 0x80 := by
  have hcond : ¬(0 ≤ a ∧ a < 32768) := by omega
  rw [CreateHeader, CreateHeaderBody]
  rw [if_neg hcond]
  exact ⟨rfl, rfl⟩

/-- Witness for C9 at the default no-autostart value 32768. -/
theorem c9_autostart_sentinel_witness :
    (CreateHeader 0 32768).getD 18 0 = 0x00 ∧ (CreateHeader 0 32768).getD 19 0 = 0x80 :=
  c9_autostart_sentinel 0 32768 (Or.inr (by norm_num))

/-! ## Claim C5 -/

/-- C5: encoding `GO TO 10` emits the single token byte 0xEC (longest match,
not separate `GO` and `TO` tokens), then the numeric literal as its ASCII
digits, the marker 0x0E and the five packed bytes, then the terminator
0x0D. -/
theorem c5_goto_longest_match :
    LineBody (strB "GO TO 10") =
      0xEC :: (strB "10" ++ 0x0E :: [0x00, 0x00, 0x0A, 0x00, 0x00]) ++ [0x0D] := by
  decide

/-! ## Claim C2 (the `;` comment rule of the spec is absent from
`BasConverter::ParseLine`) -/

/-- C2 counter-evidence: on the line text `; PRINT`, whose `;` is at the
start of the line, the encoder does not copy the remainder verbatim: it
emits the raw bytes `;` and space and then tokenizes `PRINT` to 0xF5.  Under
the claim the payload would be the verbatim bytes of `; PRINT` followed by
0x0D. -/
theorem c2_semicolon_tokenized :
    LineBody (strB "; PRINT") = [0x3B, 0x20, 0xF5, 0x0D] ∧
      LineBody (strB "; PRINT") ≠ strB "; PRINT" ++ [0x0D] := by
  exact ⟨by decide, by decide⟩

/-! ## Claim C6 -/

/-- C6: a parsed value that is an exact integer in `[-65535, 65535]` packs
as `[0x00, sign, low |v|, high |v|, 0x00]` with sign byte 0xFF exactly for
negatives; the literal `100` encodes as its ASCII digits, 0x0E, and
`[0x00, 0x00, 0x64, 0x00, 0x00]`; and every other (fractional or
out-of-range) value packs as five zero bytes. -/
theorem c6_number_packing :
    (∀ q : ℚ, q.den = 1 → -65535 ≤ q → q ≤ 65535 →
        Pack q = [0x00, if q < 0 then 0xFF else 0x00,
                  q.num.natAbs % 256, q.num.natAbs / 256, 0x00]) ∧
    LineBody (strB "100") = strB "100" ++ 0x0E :: [0x00, 0x00, 0x64, 0x00, 0x00] ++ [0x0D] ∧
    (∀ q : ℚ, ¬(q.den = 1 ∧ -65535 ≤ q ∧ q ≤ 65535) → Pack q = [0, 0, 0, 0, 0]) := by
  refine ⟨?_, by decide, ?_⟩
  · intro q h1 h2 h3
    rw [Pack, if_pos ⟨h1, h2, h3⟩]
    have hq : (q.num : ℚ) = q := by
      have := Rat.num_div_den q
      rw [h1] at this
      simpa using this
    have hle : q.num ≤ 65535 := by exact_mod_cast hq ▸ h3
    have hge : -65535 ≤ q.num := by exact_mod_cast hq ▸ h2
    have habs : q.num.natAbs / 256 < 256 := by omega
    have hsign : (q.num < 0) = (q < 0) := by
      simp [Rat.num_neg]
    simp only [hsign]
    norm_num [Nat.mod_eq_of_lt habs]
  · intro q h
    rw [Pack, if_neg h]

/-- Witness for C6 at the in-range integer 100 and the out-of-range
integer 70000. -/
theorem c6_number_packing_witness :
    Pack (100 : ℚ) = [0, 0, 100, 0, 0] ∧ Pack (70000 : ℚ) = [0, 0, 0, 0, 0] := by
  constructor
  · have h := c6_number_packing.1 (100 : ℚ) (by decide) (by norm_num) (by norm_num)
    rw [h]
    norm_num
  · exact c6_number_packing.2.2 (70000 : ℚ) (by intro h; exact absurd h.2.2 (by norm_num))

/-! ## Claim C7 -/

/-- A hit of an association-list lookup means the key is among the keys. -/
theorem lookup_mem_keys {α β : Type} [BEq α] [LawfulBEq α] {l : List (α × β)} {k : α} {v : β}
    (h : l.lookup k = some v) : k ∈ l.map Prod.fst := by
  induction l with
  | nil => simp [List.lookup] at h
  | cons p t ih =>
      rw [List.lookup] at h
      split at h
      · rename_i hk
        simp only [List.map_cons, List.mem_cons]
        exact Or.inl (eq_of_beq hk)
      · exact List.mem_cons_of_mem _ (ih h)

/-- Every code of the reverse token map is at least 0x87. -/
theorem revKeyed_keys_ge : ∀ b ∈ revKeyed.map Prod.fst, 135 ≤ b := by decide

/-- C7: replacing a token byte appends exactly one space iff the next
payload byte exists, is below 128, is not the 0x0E marker, and is
alphanumeric, a double quote, or a period; in particular `PRINT` before `"`
gains one space and `PRINT` before another token byte gains none. -/
theorem c7_smart_spacing :
    (∀ b w rest, revLookup b = some w →
      DecodeLineData (b :: rest) =
        w ++ (if smartSpace rest.head? then [32] else []) ++ DecodeLineData rest ∧
      (smartSpace rest.head? = true ↔
        ∃ nb, rest.head? = some nb ∧ nb < 128 ∧ nb ≠ 14 ∧
          (isAlnumB nb = true ∨ nb = 34 ∨ nb = 46))) ∧
    DecodeLineData [0xF5, 34] = strB "PRINT " ++ [34] ∧
    DecodeLineData [0xF5, 0xF6] = strB "PRINT" ++ strB "PLOT" := by
  refine ⟨?_, by decide, by decide⟩
  intro b w rest h
  have hb : 135 ≤ b := revKeyed_keys_ge b (lookup_mem_keys h)
  have h14 : (b == 14) = false := by simp; omega
  constructor
  · show decodeGo (rest.length + 1) (b :: rest) = _
    simp only [decodeGo, h14, Bool.false_eq_true, if_false, h]
    rfl
  · cases hn : rest.head? with
    | none => simp [smartSpace]
    | some nb =>
        simp only [smartSpace, Bool.and_eq_true, decide_eq_true_eq, Option.some.injEq,
          beq_iff_eq, Bool.not_eq_eq_eq_not, Bool.not_true, Bool.or_eq_true]
        constructor
        · rintro ⟨⟨hlt, hne⟩, hk⟩
          exact ⟨nb, rfl, hlt, by simpa using hne, by tauto⟩
        · rintro ⟨nb', hnb', hlt, hne, hk⟩
          obtain rfl : nb' = nb := by cases hnb'; rfl
          exact ⟨⟨hlt, by simpa using hne⟩, by tauto⟩

/-- Witness for C7 at the token byte of `PRINT` followed by a quote. -/
theorem c7_smart_spacing_witness :
    revLookup 0xF5 = some (strB "PRINT") ∧
    DecodeLineData [0xF5, 34] =
      strB "PRINT" ++ (if smartSpace (List.head? [34]) then [32] else []) ++
        DecodeLineData [34] :=
  ⟨by decide, (c7_smart_spacing.1 0xF5 (strB "PRINT") [34] (by decide)).1⟩

/-! ## Claim C8 -/

/-- C8: a (trimmed) input line that starts with `#autostart` whose operand
token is missing, or does not parse as an integer, leaves the whole
converter state — current default line number, autostart value, and output
records — exactly as it was. -/
theorem c8_malformed_autostart (st : Nat × Int × List Nat) (line : List Nat)
    (hdir : ((trimB line).map toLowerB).take 10 = strB "#autostart")
    (hbad : match (wsTokens (trimB line)).get? 1 with
            | none => True
            | some tok => readIntTok tok = none) :
    ConvertStep st line = st := by
  have hne : trimB line ≠ [] := by
    intro h
    rw [h] at hdir
    exact absurd hdir (by decide)
  have h35 : (trimB line).headI = 35 := by
    cases ht2 : trimB line with
    | nil => exact absurd ht2 hne
    | cons c r =>
        rw [ht2, List.map_cons, show (10 : Nat) = 9 + 1 from rfl, List.take_succ_cons,
          show strB "#autostart" = 35 :: strB "autostart" from by decide] at hdir
        have hc := ((List.cons.injEq _ _ _ _).mp hdir).1
        simp only [toLowerB] at hc
        split at hc
        · rename_i hu; simp [isUpperB] at hu; omega
        · simpa using hc
  simp only [ConvertStep]
  rw [if_neg hne, if_pos h35, if_pos hdir]
  cases hg : (wsTokens (trimB line)).get? 1 with
  | none => rfl
  | some tok =>
      rw [hg] at hbad
      have hb2 : readIntTok tok = none := hbad
      simp [hb2]

/-- Witness for C8 on the line `#autostart xy`. -/
theorem c8_malformed_autostart_witness :
    ConvertStep (10, 32768, []) (strB "#autostart xy") = (10, 32768, []) :=
  c8_malformed_autostart (10, 32768, []) (strB "#autostart xy") (by decide)
    (show readIntTok (strB "xy") = none by decide)

/-! ## Claim C10 -/

/-- Extra fuel beyond the buffer length does not change the record loop:
the loop terminates within `d.length` iterations. -/
theorem parseGo_irrel : ∀ (f1 f2 : Nat) (d : List Nat),
    d.length ≤ f1 → d.length ≤ f2 → parseGo f1 d = parseGo f2 d := by
  intro f1
  induction f1 with
  | zero =>
      intro f2 d h1 _
      have hd : d = [] := List.eq_nil_of_length_eq_zero (Nat.le_zero.mp h1)
      subst hd
      cases f2 <;> simp [parseGo]
  | succ k ih =>
      intro f2 d h1 h2
      cases f2 with
      | zero =>
          have hd : d = [] := List.eq_nil_of_length_eq_zero (Nat.le_zero.mp h2)
          subst hd
          simp [parseGo]
      | succ m =>
          simp only [parseGo]
          by_cases hlt : d.length < 4
          · rw [if_pos hlt, if_pos hlt]
          · rw [if_neg hlt, if_neg hlt]
            by_cases hbr : declLen d - 1 > d.length - 4
            · rw [if_pos hbr, if_pos hbr]
            · rw [if_neg hbr, if_neg hbr]
              have hrec : (d.drop (4 + declLen d)).length ≤ k := by
                simp only [List.length_drop]; omega
              have hrec2 : (d.drop (4 + declLen d)).length ≤ m := by
                simp only [List.length_drop]; omega
              rw [ih _ _ hrec hrec2]

/-- C10: the record loop of the decoder terminates on every finite buffer —
every iteration advances the cursor by at least the 4 header bytes (the
suffix handed to the recursive call is shorter by at least 4, even when the
declared record length is 0), and the loop is insensitive to fuel beyond
the buffer length, i.e. it finishes within `d.length` iterations. -/
theorem c10_parse_advance (d : List Nat) (h : 4 ≤ d.length) :
    (d.drop (4 + declLen d)).length + 4 ≤ d.length ∧
    ∀ fuel, d.length ≤ fuel → parseGo fuel d = ParseRecords d := by
  constructor
  · simp only [List.length_drop]; omega
  · intro fuel hf; exact parseGo_irrel fuel d.length d hf le_rfl

/-- Witness for C10 on a 4-byte buffer (a bare record header of declared
length 0). -/
theorem c10_parse_advance_witness :
    (([0, 0, 0, 0] : List Nat).drop (4 + declLen [0, 0, 0, 0])).length + 4 ≤
      ([0, 0, 0, 0] : List Nat).length ∧
    parseGo 7 [0, 0, 0, 0] = ParseRecords [0, 0, 0, 0] :=
  ⟨(c10_parse_advance [0, 0, 0, 0] (by decide)).1,
   (c10_parse_advance [0, 0, 0, 0] (by decide)).2 7 (by decide)⟩

/-! ## Claim C3 -/

/-- A complete line record as the byte stream carries it: big-endian line
number, little-endian declared length equal to the payload length, then the
payload. -/
def recBytes (r : Nat × List Nat) : List Nat :=
  [r.1 / 2 ^ 8 % 256, r.1 % 256, r.2.length % 256, r.2.length / 2 ^ 8 % 256] ++ r.2

/-- The text the decoder emits for one complete record: the line number,
a space, the decode of the payload without its final (terminator) byte,
and a newline. -/
def recText (r : Nat × List Nat) : List Nat :=
  natDigits r.1 ++ 32 :: DecodeLineData (r.2.take (r.2.length - 1)) ++ [10]

theorem recBytes_cons (r : Nat × List Nat) (rest : List Nat) :
    recBytes r ++ rest =
      r.1 / 2 ^ 8 % 256 :: r.1 % 256 :: r.2.length % 256 :: r.2.length / 2 ^ 8 % 256 ::
        (r.2 ++ rest) := by
  simp [recBytes]

/-- The record loop consumes a well-formed record and recurses on the rest
of the buffer, for any sufficient fuel. -/
theorem parseGo_records (recs : List (Nat × List Nat)) (tail : List Nat)
    (hwf : ∀ r ∈ recs, r.1 < 65536 ∧ r.2.length < 65536)
    (h4 : 4 ≤ tail.length)
    (hover : declLen tail - 1 > tail.length - 4) :
    ∀ fuel, ((recs.map recBytes).flatten ++ tail).length ≤ fuel →
      parseGo fuel ((recs.map recBytes).flatten ++ tail) = (recs.map recText).flatten := by
  induction recs with
  | nil =>
      intro fuel hf
      simp only [List.map_nil, List.flatten_nil, List.nil_append] at hf ⊢
      cases fuel with
      | zero => omega
      | succ m =>
          simp only [parseGo]
          rw [if_neg (by omega), if_pos hover]
  | cons r rs ih =>
      intro fuel hf
      obtain ⟨hr1, hr2⟩ := hwf r (List.mem_cons_self r rs)
      simp only [List.map_cons, List.flatten_cons, List.append_assoc] at hf ⊢
      rw [recBytes_cons] at hf ⊢
      cases fuel with
      | zero => simp at hf
      | succ m =>
          simp only [parseGo]
          rw [if_neg (by simp)]
          have hdecl : declLen
              (r.1 / 2 ^ 8 % 256 :: r.1 % 256 :: r.2.length % 256 :: r.2.length / 2 ^ 8 % 256 ::
                (r.2 ++ ((rs.map recBytes).flatten ++ tail))) = r.2.length := by
            show r.2.length % 256 + 256 * (r.2.length / 2 ^ 8 % 256) = r.2.length
            omega
          have hnum : recLineNum
              (r.1 / 2 ^ 8 % 256 :: r.1 % 256 :: r.2.length % 256 :: r.2.length / 2 ^ 8 % 256 ::
                (r.2 ++ ((rs.map recBytes).flatten ++ tail))) = r.1 := by
            show 256 * (r.1 / 2 ^ 8 % 256) + r.1 % 256 = r.1
            omega
          rw [hdecl, hnum]
          rw [if_neg (by simp; omega)]
          have hdrop4 :
              (r.1 / 2 ^ 8 % 256 :: r.1 % 256 :: r.2.length % 256 :: r.2.length / 2 ^ 8 % 256 ::
                (r.2 ++ ((rs.map recBytes).flatten ++ tail))).drop 4 =
              r.2 ++ ((rs.map recBytes).flatten ++ tail) := rfl
          have htake : (r.2 ++ ((rs.map recBytes).flatten ++ tail)).take (r.2.length - 1) =
              r.2.take (r.2.length - 1) :=
            List.take_append_of_le_length (Nat.sub_le _ _)
          have hdropall :
              (r.1 / 2 ^ 8 % 256 :: r.1 % 256 :: r.2.length % 256 :: r.2.length / 2 ^ 8 % 256 ::
                (r.2 ++ ((rs.map recBytes).flatten ++ tail))).drop (4 + r.2.length) =
              (rs.map recBytes).flatten ++ tail := by
            rw [show (4 : Nat) + r.2.length = r.2.length + 4 from by omega]
            show (r.2 ++ ((rs.map recBytes).flatten ++ tail)).drop r.2.length = _
            exact List.drop_left r.2 _
          rw [hdrop4, htake, hdropall]
          rw [ih (fun x hx => hwf x (List.mem_cons_of_mem _ hx)) m (by simp at hf ⊢; omega)]
          simp [recText, List.append_assoc]

/-- C3 counterexample: a record whose declared length exceeds the bytes
remaining by exactly one is not stopped at.  In the buffer
`[0, 20, 3, 0, 65, 66]` the record header declares 3 payload bytes while
only 2 remain, yet the loop decodes both payload bytes and emits
`20 AB` — the truncated record's payload does appear in the output, which
is not the empty text of the (zero) previously decoded complete records. -/
theorem c3_truncated_counterexample :
    declLen [0, 20, 3, 0, 65, 66] = 3 ∧
    ([0, 20, 3, 0, 65, 66] : List Nat).length - 4 = 2 ∧
    ParseRecords [0, 20, 3, 0, 65, 66] = strB "20 AB\n" ∧
    ParseRecords [0, 20, 3, 0, 65, 66] ≠ [] := by
  refine ⟨by decide, by decide, by decide, by decide⟩

/-- C3 as amended: the loop stops — returning exactly the text of the
previously decoded complete records, signalling no error and emitting no
byte of the truncated record — when the declared record length minus one
exceeds the bytes remaining after the record's 4 header bytes, i.e. when
the declared length exceeds the remaining bytes by at least two (the
source's `offset + lineLen - 1 > data.size()` check); a record over by
exactly one byte is instead decoded, as the counterexample shows. -/
theorem c3_truncated_stop (recs : List (Nat × List Nat)) (tail : List Nat)
    (hwf : ∀ r ∈ recs, r.1 < 65536 ∧ r.2.length < 65536)
    (h4 : 4 ≤ tail.length)
    (hover : declLen tail - 1 > tail.length - 4) :
    ParseRecords ((recs.map recBytes).flatten ++ tail) = (recs.map recText).flatten :=
  parseGo_records recs tail hwf h4 hover _ le_rfl

/-- Witness for C3: one complete record (`10 CLS`) followed by a record
header declaring 100 bytes with nothing after it. -/
theorem c3_truncated_stop_witness :
    ParseRecords (([(10, [0xFB, 13])].map recBytes).flatten ++ [0, 20, 100, 0]) =
      ([(10, [0xFB, 13])].map recText).flatten :=
  c3_truncated_stop [(10, [0xFB, 13])] [0, 20, 100, 0] (by decide) (by decide) (by decide)

/-! ## Claim C1: the encode/decode round trip

A source program in the fragment the claim quantifies over — keyword
tokens, integer numeric literals in `[-65535, 65535]`, and string literals,
written with a single space after each token — is modelled as a list of
items, rendered to source text by `render`.  `payload` is the tokenized
byte sequence the encoder produces for that text and `renderDec` the text
the decoder reproduces from those bytes; `renderDec` lists the same
keywords, numbers and string contents in the same order as `render` and
differs only in spacing. -/

/-- One token of a source line: a keyword (by its code), an integer numeric
literal, or a string literal (by its contents). -/
inductive Item : Type where
  | kw (c : Nat)
  | num (n : Int)
  | str (s : List Nat)

/-- The source spelling of an integer literal. -/
def numText (n : Int) : List Nat :=
  (if n < 0 then [45] else []) ++ natDigits n.natAbs

/-- The source text of one item, followed by the single separating space. -/
def renderItem : Item → List Nat
  | .kw c => (revLookup c).getD [] ++ [32]
  | .num n => numText n ++ [32]
  | .str s => 34 :: s ++ [34, 32]

/-- The source text of a program line: items each followed by one space. -/
def render (items : List Item) : List Nat := (items.map renderItem).flatten

/-- The fragment of C1: keywords are canonical decoder spellings other than
`REM` (the claim excludes comments), numbers are exact integers in
`[-65535, 65535]`, and string contents are printable ASCII without `"`. -/
def wfItem : Item → Prop
  | .kw c => c ∈ revKeyed.map Prod.fst ∧ c ≠ 0xEA
  | .num n => -65535 ≤ n ∧ n ≤ 65535
  | .str s => ∀ b ∈ s, 32 ≤ b ∧ b ≤ 126 ∧ b ≠ 34

/-- Whether the first byte an item contributes to the payload satisfies the
decoder's smart spacing test. -/
def smartOkItem : Item → Bool
  | .kw _ => false
  | .num n => decide (0 ≤ n)
  | .str _ => true

/-- The text the decoder reproduces: the same items in the same order, with
a space after a keyword exactly when the smart-spacing rule fires, and the
original separating space after numbers and strings. -/
def renderDec : List Item → List Nat
  | [] => []
  | .kw c :: rest =>
      (revLookup c).getD [] ++
        (match rest with
         | [] => []
         | it :: _ => if smartOkItem it then [32] else []) ++ renderDec rest
  | .num n :: rest => numText n ++ 32 :: renderDec rest
  | .str s :: rest => 34 :: s ++ [34, 32] ++ renderDec rest

/-- The payload bytes the encoder produces for one item: a keyword becomes
its code (the following space is consumed), a number keeps its digits, the
0x0E marker and the packed value, with the separating space surviving as a
raw byte, and a string survives verbatim with its space. -/
def payloadItem : Item → List Nat
  | .kw c => [c]
  | .num n => numText n ++ 14 :: Pack ((n.natAbs : ℚ)) ++ [32]
  | .str s => 34 :: s ++ [34, 32]

/-- The payload of a whole line (without the 0x0D terminator). -/
def payload (items : List Item) : List Nat := (items.map payloadItem).flatten

/-! ### Digit rendering facts -/

theorem digitsGo_digits : ∀ f n, 0 < (digitsGo f n).length ∧
    ∀ b ∈ digitsGo f n, isDigitB b = true := by
  intro f
  induction f with
  | zero =>
      intro n
      refine ⟨by simp [digitsGo], ?_⟩
      intro b hb
      simp only [digitsGo, List.mem_singleton] at hb
      subst hb
      simp only [isDigitB, Bool.and_eq_true, decide_eq_true_eq]
      omega
  | succ k ih =>
      intro n
      by_cases hn : n < 10
      · refine ⟨by simp [digitsGo, hn], ?_⟩
        intro b hb
        simp only [digitsGo, if_pos hn, List.mem_singleton] at hb
        subst hb
        simp only [isDigitB, Bool.and_eq_true, decide_eq_true_eq]
        omega
      · refine ⟨by simp [digitsGo, hn], ?_⟩
        intro b hb
        simp only [digitsGo, if_neg hn, List.mem_append, List.mem_singleton] at hb
        rcases hb with hb | hb
        · exact (ih (n / 10)).2 b hb
        · subst hb
          simp only [isDigitB, Bool.and_eq_true, decide_eq_true_eq]
          omega

theorem digitsVal_append_single (xs : List Nat) (d : Nat) :
    digitsVal (xs ++ [d]) = 10 * digitsVal xs + (d - 48) := by
  simp [digitsVal, List.foldl_append]

theorem digitsVal_digitsGo : ∀ f n, n ≤ f → digitsVal (digitsGo f n) = n := by
  intro f
  induction f with
  | zero =>
      intro n hn
      obtain rfl : n = 0 := Nat.le_zero.mp hn
      simp [digitsGo, digitsVal]
  | succ k ih =>
      intro n hn
      by_cases h10 : n < 10
      · simp [digitsGo, if_pos h10, digitsVal]
      · rw [digitsGo, if_neg h10, digitsVal_append_single, ih (n / 10) (by omega)]
        omega

theorem digitsVal_natDigits (n : Nat) : digitsVal (natDigits n) = n :=
  digitsVal_digitsGo n n le_rfl

theorem natDigits_digits (n : Nat) :
    0 < (natDigits n).length ∧ ∀ b ∈ natDigits n, isDigitB b = true :=
  digitsGo_digits n n

/-! ### takeWhile / dropWhile / findIdx? helpers -/

theorem takeWhile_append_stop {p : Nat → Bool} : ∀ (A : List Nat) {c : Nat} (B : List Nat),
    (∀ b ∈ A, p b = true) → p c = false → (A ++ c :: B).takeWhile p = A := by
  intro A
  induction A with
  | nil => intro c B _ hc; simp [List.takeWhile, hc]
  | cons a t ih =>
      intro c B hA hc
      have ha : p a = true := hA a (List.mem_cons_self _ _)
      simp only [List.cons_append, List.takeWhile_cons, ha, if_true]
      rw [ih B (fun b hb => hA b (List.mem_cons_of_mem _ hb)) hc]

theorem dropWhile_append_stop {p : Nat → Bool} : ∀ (A : List Nat) {c : Nat} (B : List Nat),
    (∀ b ∈ A, p b = true) → p c = false → (A ++ c :: B).dropWhile p = c :: B := by
  intro A
  induction A with
  | nil => intro c B _ hc; simp [List.dropWhile, hc]
  | cons a t ih =>
      intro c B hA hc
      have ha : p a = true := hA a (List.mem_cons_self _ _)
      simp only [List.cons_append, List.dropWhile_cons, ha, if_true]
      exact ih B (fun b hb => hA b (List.mem_cons_of_mem _ hb)) hc

theorem dropWhile_stop {p : Nat → Bool} {T : List Nat}
    (h : ∀ h0 ∈ T.head?, p h0 = false) : T.dropWhile p = T := by
  cases T with
  | nil => rfl
  | cons h0 t => simp [List.dropWhile_cons, h h0 rfl]

theorem findIdx?_go_append (p : Nat → Bool) : ∀ (A : List Nat) (c : Nat) (B : List Nat) (i : Nat),
    (∀ b ∈ A, p b = false) → p c = true →
    List.findIdx? p (A ++ c :: B) i = some (i + A.length) := by
  intro A
  induction A with
  | nil => intro c B i _ hc; simp [List.findIdx?, hc]
  | cons a t ih =>
      intro c B i hA hc
      have ha : p a = false := hA a (List.mem_cons_self _ _)
      show List.findIdx? p (a :: (t ++ c :: B)) i = some (i + (a :: t).length)
      rw [List.findIdx?]
      rw [if_neg (by simp [ha])]
      rw [ih c B (i + 1) (fun b hb => hA b (List.mem_cons_of_mem _ hb)) hc]
      congr 1
      simp
      omega

theorem length_dropWhile_le' (p : Nat → Bool) : ∀ l : List Nat,
    (l.dropWhile p).length ≤ l.length := by
  intro l
  induction l with
  | nil => simp [List.dropWhile]
  | cons a t ih =>
      rw [List.dropWhile_cons]
      split
      · exact le_trans ih (by simp)
      · simp

/-! ### Pack and parse facts -/

theorem Pack_length (q : ℚ) : (Pack q).length = 5 := by
  rw [Pack]; split <;> rfl

theorem parseStodQ_natDigits (n : Nat) : parseStodQ (natDigits n) = (n : ℚ) := by
  obtain ⟨-, hall⟩ := natDigits_digits n
  rw [parseStodQ, List.takeWhile_eq_self_iff.mpr hall, digitsVal_natDigits,
    List.dropWhile_eq_nil_iff.mpr hall]

/-! ### Fuel irrelevance for the three loops -/

theorem encodeGo_nil (fuel : Nat) (prev : Option Nat) : encodeGo fuel prev [] = [] := by
  cases fuel <;> rfl

theorem decodeGo_nil (fuel : Nat) : decodeGo fuel [] = [] := by
  cases fuel <;> rfl

theorem encodeGo_irrel : ∀ (f1 f2 : Nat) (prev : Option Nat) (s : List Nat),
    s.length ≤ f1 → s.length ≤ f2 → encodeGo f1 prev s = encodeGo f2 prev s := by
  intro f1
  induction f1 with
  | zero =>
      intro f2 prev s h1 _
      obtain rfl : s = [] := List.eq_nil_of_length_eq_zero (Nat.le_zero.mp h1)
      rw [encodeGo_nil, encodeGo_nil]
  | succ k ih =>
      intro f2 prev s h1 h2
      cases s with
      | nil => rw [encodeGo_nil, encodeGo_nil]
      | cons c rest =>
          cases f2 with
          | zero => simp at h2
          | succ m =>
              simp only [encodeGo]
              split
              · cases hidx : List.findIdx? (fun x => x == 34) rest with
                | none => rfl
                | some d =>
                    dsimp only []
                    have hr : (rest.drop (d + 1)).length ≤ k := by
                      simp only [List.length_drop]
                      simp only [List.length_cons] at h1
                      omega
                    have hr2 : (rest.drop (d + 1)).length ≤ m := by
                      simp only [List.length_drop]
                      simp only [List.length_cons] at h2
                      omega
                    rw [ih m _ _ hr hr2]
              · split
                · rename_i hnum
                  have hpc : (isDigitB c || c == 46) = true := by
                    rcases Bool.or_eq_true _ _ |>.mp hnum with h | h
                    · simp [h]
                    · simp [(Bool.and_eq_true _ _).mp h |>.1]
                  have hlen : 0 < ((c :: rest).takeWhile fun x => isDigitB x || x == 46).length := by
                    rw [List.takeWhile_cons, hpc]
                    simp
                  have hr : (((c :: rest)).drop
                      ((c :: rest).takeWhile fun x => isDigitB x || x == 46).length).length ≤ k := by
                    simp only [List.length_drop]
                    simp only [List.length_cons] at h1 ⊢
                    omega
                  have hr2 : (((c :: rest)).drop
                      ((c :: rest).takeWhile fun x => isDigitB x || x == 46).length).length ≤ m := by
                    simp only [List.length_drop]
                    simp only [List.length_cons] at h2 ⊢
                    omega
                  rw [ih m _ _ hr hr2]
                · cases htok : tryToken (match prev with
                                          | none => true
                                          | some p => !isAlphaB p) (c :: rest) with
                  | none =>
                      dsimp only []
                      have hr : rest.length ≤ k := by
                        simp only [List.length_cons] at h1; omega
                      have hr2 : rest.length ≤ m := by
                        simp only [List.length_cons] at h2; omega
                      rw [ih m _ _ hr hr2]
                  | some kb =>
                      dsimp only []
                      obtain ⟨-, hk1, hk2⟩ := tryToken_spec htok
                      split
                      · rfl
                      · have hd : ((c :: rest).drop kb.length).length ≤ (c :: rest).length - 1 := by
                          simp only [List.length_drop]
                          omega
                        have hr : (((c :: rest).drop kb.length).dropWhile
                            fun x => x == 32).length ≤ k := by
                          have := length_dropWhile_le' (fun x => x == 32)
                            ((c :: rest).drop kb.length)
                          simp only [List.length_cons] at h1 ⊢
                          simp only [List.length_cons] at hd
                          omega
                        have hr2 : (((c :: rest).drop kb.length).dropWhile
                            fun x => x == 32).length ≤ m := by
                          have := length_dropWhile_le' (fun x => x == 32)
                            ((c :: rest).drop kb.length)
                          simp only [List.length_cons] at h2 ⊢
                          simp only [List.length_cons] at hd
                          omega
                        rw [ih m _ _ hr hr2]

theorem decodeGo_irrel : ∀ (f1 f2 : Nat) (s : List Nat),
    s.length ≤ f1 → s.length ≤ f2 → decodeGo f1 s = decodeGo f2 s := by
  intro f1
  induction f1 with
  | zero =>
      intro f2 s h1 _
      obtain rfl : s = [] := List.eq_nil_of_length_eq_zero (Nat.le_zero.mp h1)
      rw [decodeGo_nil, decodeGo_nil]
  | succ k ih =>
      intro f2 s h1 h2
      cases s with
      | nil => rw [decodeGo_nil, decodeGo_nil]
      | cons b rest =>
          cases f2 with
          | zero => simp at h2
          | succ m =>
              simp only [decodeGo]
              simp only [List.length_cons] at h1 h2
              split
              · exact ih m _ (by simp only [List.length_drop]; omega)
                  (by simp only [List.length_drop]; omega)
              · split
                · rw [ih m _ (by omega) (by omega)]
                · split
                  · rw [ih m _ (by omega) (by omega)]
                  · split
                    · rw [ih m _ (by omega) (by omega)]
                    · rw [ih m _ (by omega) (by omega)]

/-! ### Facts about the concrete token tables, established by computation -/

/-- `_sortedKeys` is sorted by length, longest first. -/
theorem sortedKeys_sorted :
    List.Pairwise (fun a b => (List.length b ≤ List.length a : Prop)) sortedKeys := by
  decide

/-- Every key is nonempty, spelled in uppercase, and starts with a byte that
is not a space, minus, quote, digit, or dot. -/
theorem sortedKeys_facts : ∀ kb ∈ sortedKeys,
    kb.map toUpperB = kb ∧ 0 < kb.length ∧ kb.headI ≠ 32 ∧ kb.headI ≠ 45 ∧
    kb.headI ≠ 34 ∧ isDigitB kb.headI = false ∧ kb.headI ≠ 46 := by
  decide

/-- Every canonical decoder spelling is an encoder key mapping back to the
same code, and every code is at least 0x87. -/
theorem canon_facts : ∀ p ∈ revKeyed,
    p.2 ∈ sortedKeys ∧ lookupCode p.2 = p.1 ∧ 135 ≤ p.1 := by
  decide

/-- No encoder key strictly extends a canonical spelling followed by a
space: longest-match scanning cannot swallow a keyword together with its
separating space and what follows. -/
theorem canon_no_extend : ∀ p ∈ revKeyed, ∀ kb ∈ sortedKeys,
    kb.length ≤ p.2.length ∨ (p.2 ++ [32]).isPrefixOf kb = false := by
  decide

/-- An association-list hit is one of the pairs. -/
theorem lookup_pair_mem {α β : Type} [BEq α] [LawfulBEq α] :
    ∀ {l : List (α × β)} {k : α} {v : β}, l.lookup k = some v → (k, v) ∈ l := by
  intro l
  induction l with
  | nil => intro k v h; simp [List.lookup] at h
  | cons p t ih =>
      intro k v h
      rw [List.lookup] at h
      split at h
      · rename_i hk
        cases h
        have : k = p.1 := eq_of_beq hk
        subst this
        exact List.mem_cons_self _ _
      · exact List.mem_cons_of_mem _ (ih h)

/-- A key that occurs in an association list is found by lookup. -/
theorem lookup_isSome_of_mem {α β : Type} [BEq α] [LawfulBEq α] :
    ∀ {l : List (α × β)} {k : α}, k ∈ l.map Prod.fst → ∃ v, l.lookup k = some v := by
  intro l
  induction l with
  | nil => intro k h; simp at h
  | cons p t ih =>
      intro k h
      by_cases hk : k == p.1
      · exact ⟨p.2, by rw [List.lookup, hk]⟩
      · simp only [List.map_cons, List.mem_cons] at h
        rcases h with h | h
        · exact absurd (beq_iff_eq.mpr h) (by simpa using hk)
        · rcases ih h with ⟨v, hv⟩
          refine ⟨v, ?_⟩
          rw [List.lookup, Bool.not_eq_true] at *
          rw [hk]
          exact hv

/-! ### The keyword matcher on rendered text -/

/-- `findSome?` over a length-sorted list returns `f w` when `f` hits `w`
and misses every other entry at least as long as `w`. -/
theorem findSome?_sorted_first {β : Type} (f : List Nat → Option β) :
    ∀ (l : List (List Nat)) (w : List Nat) (v : β),
      List.Pairwise (fun a b => (List.length b ≤ List.length a : Prop)) l →
      w ∈ l → f w = some v →
      (∀ kb ∈ l, kb ≠ w → w.length ≤ kb.length → f kb = none) →
      l.findSome? f = some v := by
  intro l
  induction l with
  | nil => intro w v _ hmem _ _; simp at hmem
  | cons h t ih =>
      intro w v hsort hmem hw hother
      rw [List.findSome?]
      by_cases hhw : h = w
      · subst hhw
        rw [hw]
      · have hmem' : w ∈ t := by
          rcases List.mem_cons.mp hmem with h1 | h1
          · exact absurd h1.symm hhw
          · exact h1
        have hwh : w.length ≤ h.length := (List.pairwise_cons.mp hsort).1 w hmem'
        rw [hother h (List.mem_cons_self _ _) hhw hwh]
        exact ih w v (List.pairwise_cons.mp hsort).2 hmem' hw
          (fun kb hkb => hother kb (List.mem_cons_of_mem _ hkb))

/-- No key matches at a byte whose uppercase form heads no key: the matcher
falls through to the raw-byte branch there. -/
theorem tryToken_none_of_head (p : Bool) (c : Nat) (T : List Nat)
    (hc : ∀ kb ∈ sortedKeys, kb.headI ≠ toUpperB c) :
    tryToken p (c :: T) = none := by
  rw [tryToken]
  apply List.findSome?_eq_none_iff.mpr
  intro kb hkb
  by_cases hg : kb.length ≤ (c :: T).length ∧ 0 < kb.length
  · rw [if_pos hg]
    obtain ⟨kh, kt, rfl⟩ : ∃ kh kt, kb = kh :: kt := by
      cases kb with
      | nil => exact absurd hg.2 (by simp)
      | cons kh kt => exact ⟨kh, kt, rfl⟩
    have hup : toUpperB kh = kh := by
      have := (sortedKeys_facts _ hkb).1
      rw [List.map_cons] at this
      exact (List.cons.injEq _ _ _ _).mp this |>.1
    have hciF : ciEqB ((c :: T).take (kh :: kt).length) (kh :: kt) = false := by
      rw [show (kh :: kt).length = kt.length + 1 from rfl, List.take_succ_cons]
      simp only [ciEqB, List.map_cons]
      rw [Bool.eq_false_iff]
      intro hbeq
      have := (List.cons.injEq _ _ _ _).mp (eq_of_beq hbeq) |>.1
      rw [hup] at this
      exact hc _ hkb (by simpa using this.symm)
    rw [hciF]
    simp
  · rw [if_neg hg]

/-- The matcher on a canonical keyword followed by a space and anything:
it returns exactly that keyword. -/
theorem tryToken_canon (c : Nat) (w : List Nat) (T : List Nat)
    (hw : (c, w) ∈ revKeyed) :
    tryToken true (w ++ 32 :: T) = some w := by
  obtain ⟨hmem, hcode, hge⟩ := canon_facts (c, w) hw
  obtain ⟨hup, hpos, -⟩ := sortedKeys_facts w hmem
  rw [tryToken]
  apply findSome?_sorted_first _ sortedKeys w w sortedKeys_sorted hmem
  · -- the keyword itself matches
    have hg : w.length ≤ (w ++ 32 :: T).length ∧ 0 < w.length := by
      constructor
      · simp
      · exact hpos
    rw [if_pos hg]
    have htake : (w ++ 32 :: T).take w.length = w := List.take_left w _
    have hci : ciEqB ((w ++ 32 :: T).take w.length) w = true := by
      rw [htake]; simp [ciEqB]
    rw [hci]
    simp only [if_true]
    have hdrop : (w ++ 32 :: T).drop w.length = 32 :: T := List.drop_left w _
    rw [hdrop]
    simp [isAlnumB, isAlphaB, isUpperB, isLowerB, isDigitB]
  · -- every other key at least as long fails
    intro kb hkb hne hlen
    by_cases hg : kb.length ≤ (w ++ 32 :: T).length ∧ 0 < kb.length
    · rw [if_pos hg]
      have hciF : ciEqB ((w ++ 32 :: T).take kb.length) kb = false := by
        rw [Bool.eq_false_iff]
        intro hbeq
        rw [ciEqB] at hbeq
        have hmapeq : ((w ++ 32 :: T).take kb.length).map toUpperB = kb.map toUpperB :=
          eq_of_beq hbeq
        rw [(sortedKeys_facts kb hkb).1] at hmapeq
        rcases Nat.lt_or_ge w.length kb.length with hlt | hge2
        · -- kb longer than w: kb would have to start with w ++ [32]
          have htk : (w ++ 32 :: T).take kb.length =
              w ++ 32 :: T.take (kb.length - w.length - 1) := by
            rw [List.take_append_eq_append_take]
            congr 1
            · exact List.take_of_length_le (by omega)
            · rw [show kb.length - w.length = (kb.length - w.length - 1) + 1 from by omega,
                List.take_succ_cons]
              norm_num
          rw [htk] at hmapeq
          have hpre : (w ++ [32]).isPrefixOf kb = true := by
            rw [List.isPrefixOf_iff_prefix]
            rw [← hmapeq]
            simp only [List.map_append, List.map_cons, hup]
            show (w ++ [32]) <+: w ++ 32 :: List.map toUpperB (T.take _)
            rw [show (w ++ 32 :: List.map toUpperB (T.take (kb.length - w.length - 1))) =
                (w ++ [32]) ++ List.map toUpperB (T.take (kb.length - w.length - 1)) from by
              simp]
            exact List.prefix_append _ _
          have hnoext := canon_no_extend (c, w) hw kb hkb
          dsimp only [] at hnoext
          rcases hnoext with h1 | h1
          · omega
          · rw [hpre] at h1; cases h1
        · -- same length: the keys coincide
          have hkw : kb.length = w.length := le_antisymm hge2 hlen
          have : (w ++ 32 :: T).take kb.length = w := by
            rw [hkw]; exact List.take_left w _
          rw [this] at hmapeq
          rw [hup] at hmapeq
          exact hne hmapeq.symm
      rw [hciF]
      simp
    · rw [if_neg hg]

/-! ### Head bytes of rendered and encoded item sequences -/

/-- The first payload byte of an item sequence passes the decoder's smart
spacing test exactly when `smartOkItem` says so. -/
theorem payload_head_smart : ∀ (items : List Item), (∀ it ∈ items, wfItem it) →
    smartSpace (payload items).head? =
      (match items with
       | [] => false
       | it :: _ => smartOkItem it) := by
  intro items hwf
  cases items with
  | nil => rfl
  | cons it rest =>
      have hwit := hwf it (List.mem_cons_self _ _)
      cases it with
      | kw c =>
          obtain ⟨hcmem, -⟩ := hwit
          have hge := revKeyed_keys_ge c hcmem
          show smartSpace (([c] ++ payload rest)).head? = false
          simp only [List.cons_append, List.head?_cons, smartSpace]
          simp
          omega
      | num n =>
          show smartSpace ((numText n ++ 14 :: Pack ((n.natAbs : ℚ)) ++ [32]) ++
            payload rest).head? = decide (0 ≤ n)
          by_cases hn : n < 0
          · rw [numText, if_pos hn]
            simp only [List.cons_append, List.head?_cons, smartSpace]
            simp [isAlnumB, isAlphaB, isUpperB, isLowerB, isDigitB]
            omega
          · rw [numText, if_neg hn]
            obtain ⟨hpos, hdig⟩ := natDigits_digits n.natAbs
            obtain ⟨dh, dt, hd⟩ : ∃ dh dt, natDigits n.natAbs = dh :: dt := by
              cases hnd : natDigits n.natAbs with
              | nil => rw [hnd] at hpos; simp at hpos
              | cons dh dt => exact ⟨dh, dt, rfl⟩
            have hdh : isDigitB dh = true := hdig dh (by rw [hd]; exact List.mem_cons_self _ _)
            rw [hd]
            have h0n : decide ((0 : Int) ≤ n) = true := by simp; omega
            rw [h0n]
            simp only [List.nil_append, List.cons_append, List.head?_cons, smartSpace]
            simp only [isDigitB, Bool.and_eq_true, decide_eq_true_eq] at hdh
            simp [isAlnumB, isAlphaB, isUpperB, isLowerB, isDigitB]
            omega
      | str s =>
          show smartSpace ((34 :: s ++ [34, 32]) ++ payload rest).head? = true
          simp only [List.cons_append, List.head?_cons, smartSpace]
          simp

/-- The first byte of a rendered item sequence is never a space. -/
theorem render_head_ne_space : ∀ (items : List Item), (∀ it ∈ items, wfItem it) →
    ∀ h0 ∈ (render items).head?, (h0 == 32) = false := by
  intro items hwf
  cases items with
  | nil => intro h0 h; simp [render] at h
  | cons it rest =>
      have hwit := hwf it (List.mem_cons_self _ _)
      have hrender : render (it :: rest) = renderItem it ++ render rest := by
        simp [render]
      intro h0 h
      rw [hrender] at h
      cases it with
      | kw c =>
          obtain ⟨hcmem, -⟩ := hwit
          obtain ⟨w, hw⟩ := lookup_isSome_of_mem hcmem
          have hpair := lookup_pair_mem hw
          obtain ⟨hwmem, -, -⟩ := canon_facts _ hpair
          obtain ⟨-, hwpos, hwh32, -⟩ := sortedKeys_facts _ hwmem
          obtain ⟨wh, wt, rfl⟩ : ∃ wh wt, w = wh :: wt := by
            cases w with
            | nil => simp at hwpos
            | cons wh wt => exact ⟨wh, wt, rfl⟩
          rw [show renderItem (Item.kw c) = wh :: (wt ++ [32]) from by
            simp [renderItem, revLookup, hw]] at h
          simp only [List.cons_append, List.head?_cons, Option.mem_def,
            Option.some.injEq] at h
          subst h
          simpa using hwh32
      | num n =>
          by_cases hn : n < 0
          · rw [show renderItem (Item.num n) = 45 :: (natDigits n.natAbs ++ [32]) from by
              simp [renderItem, numText, if_pos hn]] at h
            simp only [List.cons_append, List.head?_cons, Option.mem_def,
              Option.some.injEq] at h
            subst h
            decide
          · obtain ⟨hpos, hdig⟩ := natDigits_digits n.natAbs
            obtain ⟨dh, dt, hd⟩ : ∃ dh dt, natDigits n.natAbs = dh :: dt := by
              cases hnd : natDigits n.natAbs with
              | nil => rw [hnd] at hpos; simp at hpos
              | cons dh dt => exact ⟨dh, dt, rfl⟩
            have hdh : isDigitB dh = true := hdig dh (by rw [hd]; exact List.mem_cons_self _ _)
            rw [show renderItem (Item.num n) = dh :: (dt ++ [32]) from by
              simp [renderItem, numText, if_neg hn, hd]] at h
            simp only [List.cons_append, List.head?_cons, Option.mem_def,
              Option.some.injEq] at h
            subst h
            simp only [isDigitB, Bool.and_eq_true, decide_eq_true_eq] at hdh
            simp
            omega
      | str s =>
          rw [show renderItem (Item.str s) = 34 :: (s ++ [34, 32]) from by
            simp [renderItem]] at h
          simp only [List.cons_append, List.head?_cons, Option.mem_def,
            Option.some.injEq] at h
          subst h
          decide

/-! ### Single steps of the encoder on rendered text -/

/-- A space that no earlier branch claims is emitted raw. -/
theorem encode_space_step (fuel : Nat) (prev : Option Nat) (T : List Nat)
    (hf : (32 :: T).length ≤ fuel) :
    encodeGo fuel prev (32 :: T) = 32 :: encodeGo (fuel - 1) (some 32) T := by
  cases fuel with
  | zero => simp at hf
  | succ f =>
      simp only [encodeGo]
      rw [if_neg (by decide)]
      rw [if_neg (by cases T <;> simp [isDigitB])]
      rw [tryToken_none_of_head _ 32 T
        (fun kb hkb => by
          have := (sortedKeys_facts kb hkb).2.2.1
          simpa [toUpperB, isLowerB] using this)]
      rfl

/-- A minus sign is not matched by anything and is emitted raw. -/
theorem encode_dash_step (fuel : Nat) (prev : Option Nat) (T : List Nat)
    (hf : (45 :: T).length ≤ fuel) :
    encodeGo fuel prev (45 :: T) = 45 :: encodeGo (fuel - 1) (some 45) T := by
  cases fuel with
  | zero => simp at hf
  | succ f =>
      simp only [encodeGo]
      rw [if_neg (by decide)]
      rw [if_neg (by cases T <;> simp [isDigitB])]
      rw [tryToken_none_of_head _ 45 T
        (fun kb hkb => by
          have := (sortedKeys_facts kb hkb).2.2.2.1
          simpa [toUpperB, isLowerB] using this)]
      rfl

/-- `takeWhile` stops at the junction of an all-true block and a
false-or-absent head. -/
theorem takeWhile_block {p : Nat → Bool} (A T : List Nat)
    (hA : ∀ b ∈ A, p b = true) (hT : ∀ h0 ∈ T.head?, p h0 = false) :
    (A ++ T).takeWhile p = A := by
  cases T with
  | nil => rw [List.append_nil]; exact List.takeWhile_eq_self_iff.mpr hA
  | cons c B => exact takeWhile_append_stop A B hA (hT c rfl)

/-- The numeric-literal branch on the digits of `m` followed by a
non-digit, non-dot continuation. -/
theorem encode_digits_step (m : Nat) (T : List Nat)
    (hT : ∀ h0 ∈ T.head?, (isDigitB h0 || h0 == 46) = false) :
    ∀ fuel prev, (natDigits m ++ T).length ≤ fuel →
    encodeGo fuel prev (natDigits m ++ T) =
      natDigits m ++ 14 :: Pack ((m : ℚ)) ++
        encodeGo (fuel - 1) (some ((natDigits m).getLastD 0)) T := by
  intro fuel prev hf
  obtain ⟨hpos, hdig⟩ := natDigits_digits m
  obtain ⟨dh, dt, hd⟩ : ∃ dh dt, natDigits m = dh :: dt := by
    cases hnd : natDigits m with
    | nil => rw [hnd] at hpos; simp at hpos
    | cons dh dt => exact ⟨dh, dt, rfl⟩
  have hdh : isDigitB dh = true := hdig dh (by rw [hd]; exact List.mem_cons_self _ _)
  cases fuel with
  | zero => rw [hd] at hf; simp at hf
  | succ f =>
      have hcons : natDigits m ++ T = dh :: (dt ++ T) := by rw [hd]; rfl
      rw [hcons]
      simp only [encodeGo]
      rw [if_neg (by
        simp only [isDigitB, Bool.and_eq_true, decide_eq_true_eq] at hdh
        simp
        omega)]
      rw [if_pos (by simp [hdh])]
      have hrun : ((dh :: (dt ++ T)).takeWhile fun x => isDigitB x || x == 46) =
          natDigits m := by
        rw [← hcons]
        exact takeWhile_block (natDigits m) T (fun b hb => by simp [hdig b hb]) hT
      rw [hrun, parseStodQ_natDigits]
      have hdrop : (dh :: (dt ++ T)).drop (natDigits m).length = T := by
        rw [← hcons]
        exact List.drop_left _ _
      rw [hdrop]
      rfl

/-- The keyword branch on a canonical spelling followed by a space: the
code byte is emitted, the keyword and the following space are consumed,
and scanning resumes with `prev` the skipped space. -/
theorem encode_kw_step (c : Nat) (w : List Nat) (T : List Nat)
    (hpair : (c, w) ∈ revKeyed) (hne : c ≠ 234)
    (hThead : ∀ h0 ∈ T.head?, (h0 == 32) = false) :
    ∀ fuel prev, (w ++ 32 :: T).length ≤ fuel →
      (match prev with
       | none => true
       | some p => !isAlphaB p) = true →
      encodeGo fuel prev (w ++ 32 :: T) = c :: encodeGo (fuel - 1) (some 32) T := by
  intro fuel prev hf hprev
  have hfacts := canon_facts _ hpair
  dsimp only [] at hfacts
  obtain ⟨hwmem, hwcode, -⟩ := hfacts
  obtain ⟨hwup, hwpos, hwh32, hwh45, hwh34, hwhdig, hwh46⟩ := sortedKeys_facts _ hwmem
  obtain ⟨wh, wt, rfl⟩ : ∃ wh wt, w = wh :: wt := by
    cases w with
    | nil => simp at hwpos
    | cons wh wt => exact ⟨wh, wt, rfl⟩
  simp only [List.headI] at hwh34 hwhdig hwh46
  cases fuel with
  | zero => simp at hf
  | succ f =>
      have htok := tryToken_canon c (wh :: wt) T hpair
      show encodeGo (f + 1) prev (wh :: (wt ++ 32 :: T)) = _
      simp only [encodeGo]
      rw [if_neg (by simp [hwh34])]
      rw [if_neg (by simp [hwhdig, hwh46])]
      rw [hprev]
      rw [show wh :: (wt ++ 32 :: T) = (wh :: wt) ++ 32 :: T from rfl]
      rw [htok]
      dsimp only []
      rw [hwcode]
      rw [if_neg (by simp [hne])]
      rw [List.drop_left]
      have hdw : List.dropWhile (fun x => x == 32) (32 :: T) = T := by
        rw [List.dropWhile_cons]
        rw [if_pos (by decide)]
        exact dropWhile_stop hThead
      rw [hdw]
      rw [if_pos (show T.length < (32 :: T).length from by simp)]
      rfl

/-- The string-literal branch: everything through the closing quote is
copied verbatim and scanning resumes after it. -/
theorem encode_str_step (s T : List Nat) (hs : ∀ b ∈ s, b ≠ 34) :
    ∀ fuel prev, (34 :: (s ++ 34 :: T)).length ≤ fuel →
      encodeGo fuel prev (34 :: (s ++ 34 :: T)) =
        (34 :: (s ++ [34])) ++ encodeGo (fuel - 1) (some 34) T := by
  intro fuel prev hf
  cases fuel with
  | zero => simp at hf
  | succ f =>
      simp only [encodeGo]
      rw [if_pos (by decide)]
      have hidx : List.findIdx? (fun x => x == 34) (s ++ 34 :: T) = some s.length := by
        have := findIdx?_go_append (fun x => x == 34) s 34 T 0
          (fun b hb => by simp [hs b hb]) (by decide)
        simpa using this
      rw [hidx]
      dsimp only []
      have hsplit : s ++ 34 :: T = (s ++ [34]) ++ T := by simp
      have htake : (s ++ 34 :: T).take (s.length + 1) = s ++ [34] := by
        rw [hsplit, show s.length + 1 = (s ++ [34]).length from by simp]
        exact List.take_left _ _
      have hdrop : (s ++ 34 :: T).drop (s.length + 1) = T := by
        rw [hsplit, show s.length + 1 = (s ++ [34]).length from by simp]
        exact List.drop_left _ _
      rw [htake, hdrop]
      rfl

/-- The encoder turns the rendered source text of a well-formed item
sequence into the item payloads, whatever sufficient fuel and safe
previous byte the scan state carries. -/
theorem encode_render : ∀ (items : List Item), (∀ it ∈ items, wfItem it) →
    ∀ fuel prev, (render items).length ≤ fuel →
      (match prev with
       | none => true
       | some p => !isAlphaB p) = true →
      encodeGo fuel prev (render items) = payload items := by
  intro items
  induction items with
  | nil =>
      intro _ fuel prev _ _
      show encodeGo fuel prev [] = []
      exact encodeGo_nil fuel prev
  | cons it rest ih =>
      intro hwf fuel prev hfuel hprev
      have hwit := hwf it (List.mem_cons_self _ _)
      have hwrest : ∀ x ∈ rest, wfItem x := fun x hx => hwf x (List.mem_cons_of_mem _ hx)
      have hThead := render_head_ne_space rest hwrest
      have hrender : render (it :: rest) = renderItem it ++ render rest := by
        simp [render]
      have hpayload : payload (it :: rest) = payloadItem it ++ payload rest := by
        simp [payload]
      rw [hrender] at hfuel ⊢
      rw [hpayload]
      cases it with
      | kw c =>
          obtain ⟨hcmem, hcne⟩ := hwit
          obtain ⟨w, hw⟩ := lookup_isSome_of_mem hcmem
          have hpair : (c, w) ∈ revKeyed := lookup_pair_mem hw
          have hri : renderItem (Item.kw c) = w ++ [32] := by
            simp [renderItem, revLookup, hw]
          rw [hri, show (w ++ [32]) ++ render rest = w ++ 32 :: render rest from by simp]
            at hfuel ⊢
          have hwpos : 0 < w.length :=
            (sortedKeys_facts w (canon_facts _ hpair).1).2.1
          rw [encode_kw_step c w (render rest) hpair hcne hThead fuel prev hfuel hprev]
          rw [ih hwrest (fuel - 1) (some 32)
            (by simp at hfuel; omega) (by decide)]
          simp [payloadItem]
      | num n =>
          obtain ⟨hn1, hn2⟩ := hwit
          have hTd : ∀ h0 ∈ (32 :: render rest).head?, (isDigitB h0 || h0 == 46) = false := by
            intro h0 hh
            simp only [List.head?_cons, Option.mem_def, Option.some.injEq] at hh
            subst hh
            decide
          by_cases hn : n < 0
          · have hri : renderItem (Item.num n) = 45 :: (natDigits n.natAbs ++ [32]) := by
              simp [renderItem, numText, if_pos hn]
            rw [hri, show (45 :: (natDigits n.natAbs ++ [32])) ++ render rest =
                45 :: (natDigits n.natAbs ++ 32 :: render rest) from by simp] at hfuel ⊢
            rw [encode_dash_step fuel prev _ hfuel]
            rw [encode_digits_step n.natAbs (32 :: render rest) hTd (fuel - 1) (some 45)
              (by simp at hfuel ⊢; omega)]
            rw [encode_space_step (fuel - 1 - 1) _ (render rest)
              (by have := (natDigits_digits n.natAbs).1; simp at hfuel ⊢; omega)]
            rw [ih hwrest (fuel - 1 - 1 - 1) (some 32)
              (by have := (natDigits_digits n.natAbs).1; simp at hfuel ⊢; omega) (by decide)]
            simp [payloadItem, numText, if_pos hn]
          · have hri : renderItem (Item.num n) = natDigits n.natAbs ++ [32] := by
              simp [renderItem, numText, if_neg hn]
            rw [hri, show (natDigits n.natAbs ++ [32]) ++ render rest =
                natDigits n.natAbs ++ 32 :: render rest from by simp] at hfuel ⊢
            rw [encode_digits_step n.natAbs (32 :: render rest) hTd fuel prev hfuel]
            rw [encode_space_step (fuel - 1) _ (render rest)
              (by have := (natDigits_digits n.natAbs).1; simp at hfuel ⊢; omega)]
            rw [ih hwrest (fuel - 1 - 1) (some 32)
              (by have := (natDigits_digits n.natAbs).1; simp at hfuel ⊢; omega) (by decide)]
            simp [payloadItem, numText, if_neg hn]
      | str s =>
          have hs34 : ∀ b ∈ s, b ≠ 34 := fun b hb => (hwit b hb).2.2
          have hri : renderItem (Item.str s) = 34 :: (s ++ [34, 32]) := by
            simp [renderItem]
          rw [hri, show (34 :: (s ++ [34, 32])) ++ render rest =
              34 :: (s ++ 34 :: (32 :: render rest)) from by simp] at hfuel ⊢
          rw [encode_str_step s (32 :: render rest) hs34 fuel prev hfuel]
          rw [encode_space_step (fuel - 1) _ (render rest)
            (by simp at hfuel ⊢; omega)]
          rw [ih hwrest (fuel - 1 - 1) (some 32)
            (by simp at hfuel ⊢; omega) (by decide)]
          simp [payloadItem]

/-! ### Decoding the payload back to text -/

/-- A key absent from an association list is not found. -/
theorem lookup_none_of_forall {α β : Type} [BEq α] [LawfulBEq α] :
    ∀ {l : List (α × β)} {k : α}, (∀ p ∈ l, k ≠ p.1) → l.lookup k = none := by
  intro l
  induction l with
  | nil => intro k _; rfl
  | cons p t ih =>
      intro k h
      rw [List.lookup]
      have : (k == p.1) = false := by
        simpa using h p (List.mem_cons_self _ _)
      rw [this]
      exact ih fun q hq => h q (List.mem_cons_of_mem _ hq)

/-- Bytes below 0x87 are not token codes. -/
theorem revLookup_none_lt (b : Nat) (hb : b < 135) : revLookup b = none :=
  lookup_none_of_forall fun p hp => by
    have := (canon_facts p hp).2.2
    omega

/-- A run of printable non-quote-sensitive bytes decodes to itself. -/
theorem decode_plain : ∀ (ds : List Nat), (∀ b ∈ ds, 32 ≤ b ∧ b ≤ 126) →
    ∀ (fuel : Nat) (T : List Nat), (ds ++ T).length ≤ fuel →
      decodeGo fuel (ds ++ T) = ds ++ decodeGo (fuel - ds.length) T := by
  intro ds
  induction ds with
  | nil =>
      intro _ fuel T _
      simp
  | cons b dt ih =>
      intro hds fuel T hf
      obtain ⟨hb1, hb2⟩ := hds b (List.mem_cons_self _ _)
      cases fuel with
      | zero => simp at hf
      | succ f =>
          show decodeGo (f + 1) (b :: (dt ++ T)) = _
          simp only [decodeGo]
          rw [if_neg (by simp; omega)]
          rw [revLookup_none_lt b (by omega)]
          dsimp only []
          rw [if_pos (by simp; omega)]
          rw [ih (fun x hx => hds x (List.mem_cons_of_mem _ hx)) f T (by simp at hf ⊢; omega)]
          simp only [List.cons_append, List.length_cons]
          have harith : f + 1 - (dt.length + 1) = f - dt.length := by omega
          rw [harith]

/-- The hidden-number marker skips the five packed bytes. -/
theorem decode_skip_step (q : ℚ) (T : List Nat) :
    ∀ fuel, (14 :: (Pack q ++ T)).length ≤ fuel →
      decodeGo fuel (14 :: (Pack q ++ T)) = decodeGo (fuel - 1) T := by
  intro fuel hf
  cases fuel with
  | zero => simp at hf
  | succ f =>
      simp only [decodeGo]
      rw [if_pos (by decide)]
      have : (Pack q ++ T).drop 5 = T := by
        rw [show (5 : Nat) = (Pack q).length from (Pack_length q).symm]
        exact List.drop_left _ _
      rw [this]
      rfl

/-- Decoding at a token byte: keyword text, optional smart space, rest. -/
theorem decode_kw_step (b : Nat) (w : List Nat) (hw : revLookup b = some w) (T : List Nat) :
    ∀ fuel, (b :: T).length ≤ fuel →
      decodeGo fuel (b :: T) =
        w ++ (if smartSpace T.head? then [32] else []) ++ decodeGo (fuel - 1) T := by
  intro fuel hf
  have hb : 135 ≤ b := by
    have := (canon_facts _ (lookup_pair_mem hw)).2.2
    exact this
  cases fuel with
  | zero => simp at hf
  | succ f =>
      simp only [decodeGo]
      rw [if_neg (by simp; omega)]
      rw [hw]
      rfl

/-- The decoder reproduces `renderDec` from the payload of a well-formed
item sequence. -/
theorem decode_payload : ∀ (items : List Item), (∀ it ∈ items, wfItem it) →
    ∀ fuel, (payload items).length ≤ fuel →
      decodeGo fuel (payload items) = renderDec items := by
  intro items
  induction items with
  | nil =>
      intro _ fuel _
      show decodeGo fuel [] = []
      exact decodeGo_nil fuel
  | cons it rest ih =>
      intro hwf fuel hfuel
      have hwit := hwf it (List.mem_cons_self _ _)
      have hwrest : ∀ x ∈ rest, wfItem x := fun x hx => hwf x (List.mem_cons_of_mem _ hx)
      have hpayload : payload (it :: rest) = payloadItem it ++ payload rest := by
        simp [payload]
      rw [hpayload] at hfuel ⊢
      cases it with
      | kw c =>
          obtain ⟨hcmem, -⟩ := hwit
          obtain ⟨w, hw⟩ := lookup_isSome_of_mem hcmem
          rw [show payloadItem (Item.kw c) ++ payload rest = c :: payload rest from by
            simp [payloadItem]] at hfuel ⊢
          rw [decode_kw_step c w hw (payload rest) fuel hfuel]
          rw [payload_head_smart rest hwrest]
          rw [ih hwrest (fuel - 1) (by simp at hfuel ⊢; omega)]
          cases rest with
          | nil => simp [renderDec, revLookup, hw]
          | cons it2 r2 => simp [renderDec, revLookup, hw]
      | num n =>
          have hplain : ∀ b ∈ numText n, 32 ≤ b ∧ b ≤ 126 := by
            intro b hb
            rw [numText] at hb
            rcases List.mem_append.mp hb with hb | hb
            · split at hb
              · simp at hb; omega
              · simp at hb
            · have := (natDigits_digits n.natAbs).2 b hb
              simp only [isDigitB, Bool.and_eq_true, decide_eq_true_eq] at this
              omega
          rw [show payloadItem (Item.num n) ++ payload rest =
              numText n ++ (14 :: (Pack ((n.natAbs : ℚ)) ++ (32 :: payload rest))) from by
            simp [payloadItem]] at hfuel ⊢
          rw [decode_plain (numText n) hplain fuel _ hfuel]
          rw [decode_skip_step ((n.natAbs : ℚ)) (32 :: payload rest) _
            (by simp at hfuel ⊢; omega)]
          rw [show (32 : Nat) :: payload rest = [32] ++ payload rest from rfl]
          rw [decode_plain [32] (by decide) _ _
            (by have := Pack_length ((n.natAbs : ℚ)); simp at hfuel ⊢; omega)]
          rw [ih hwrest _
            (by have := Pack_length ((n.natAbs : ℚ)); simp at hfuel ⊢; omega)]
          simp [renderDec]
      | str s =>
          have hplain : ∀ b ∈ 34 :: (s ++ [34, 32]), 32 ≤ b ∧ b ≤ 126 := by
            intro b hb
            rcases List.mem_cons.mp hb with rfl | hb
            · omega
            · rcases List.mem_append.mp hb with hb | hb
              · have := hwit b hb
                omega
              · simp at hb
                omega
          rw [show payloadItem (Item.str s) ++ payload rest =
              (34 :: (s ++ [34, 32])) ++ payload rest from by simp [payloadItem]] at hfuel ⊢
          rw [decode_plain (34 :: (s ++ [34, 32])) hplain fuel _ hfuel]
          rw [ih hwrest _ (by simp at hfuel ⊢; omega)]
          simp [renderDec]

/-- `renderDec` and `render` agree once all spaces are removed: the decoded
text carries the same keywords, numbers and string contents in the same
order, differing only in spacing. -/
theorem renderDec_filter : ∀ items : List Item,
    (renderDec items).filter (fun b => b != 32) =
      (render items).filter (fun b => b != 32) := by
  intro items
  induction items with
  | nil => rfl
  | cons it rest ih =>
      have hrender : render (it :: rest) = renderItem it ++ render rest := by
        simp [render]
      rw [hrender]
      cases it with
      | kw c =>
          cases rest with
          | nil => simp [renderDec, renderItem, render]
          | cons it2 r2 =>
              rw [show renderDec (Item.kw c :: it2 :: r2) = (revLookup c).getD [] ++
                  (if smartOkItem it2 then [32] else []) ++ renderDec (it2 :: r2) from rfl,
                show renderItem (Item.kw c) = (revLookup c).getD [] ++ [32] from rfl]
              have hif : (if smartOkItem it2 then ([32] : List Nat) else []).filter
                  (fun b => b != 32) = [] := by
                split <;> rfl
              simp [List.filter_append, hif, ih]
      | num n =>
          rw [show renderDec (Item.num n :: rest) = numText n ++ 32 :: renderDec rest from rfl,
            show renderItem (Item.num n) = numText n ++ [32] from rfl]
          simp [List.filter_append, List.filter_cons, ih]
      | str s =>
          rw [show renderDec (Item.str s :: rest) = 34 :: s ++ [34, 32] ++ renderDec rest from rfl,
            show renderItem (Item.str s) = 34 :: s ++ [34, 32] from rfl]
          simp [List.filter_append, List.filter_cons, ih]

/-- C1: for every source line made only of keyword tokens, integer numeric
literals in `[-65535, 65535]` and string literals, written with a single
space after each token, decoding the encoder's payload reproduces an
equivalent token sequence: the decoded text is exactly `renderDec` — the
same keywords, numbers and string contents in the same order — and it
matches the original source byte-for-byte once spacing is ignored. -/
theorem c1_roundtrip (items : List Item) (hwf : ∀ it ∈ items, wfItem it) :
    DecodeLineData ((LineBody (render items)).dropLast) = renderDec items ∧
    (renderDec items).filter (fun b => b != 32) =
      (render items).filter (fun b => b != 32) := by
  refine ⟨?_, renderDec_filter items⟩
  have hdl : (LineBody (render items)).dropLast =
      encodeGo (render items).length none (render items) := by
    rw [LineBody]
    exact List.dropLast_concat
  rw [hdl, encode_render items hwf _ none le_rfl rfl, DecodeLineData]
  exact decode_payload items hwf _ le_rfl

/-- Witness for C1 on the program line `PRINT "HI" 10`. -/
theorem c1_roundtrip_witness :
    DecodeLineData ((LineBody (render [Item.kw 0xF5, Item.str [72, 73], Item.num 10])).dropLast) =
      renderDec [Item.kw 0xF5, Item.str [72, 73], Item.num 10] ∧
    (renderDec [Item.kw 0xF5, Item.str [72, 73], Item.num 10]).filter (fun b => b != 32) =
      (render [Item.kw 0xF5, Item.str [72, 73], Item.num 10]).filter (fun b => b != 32) :=
  c1_roundtrip [Item.kw 0xF5, Item.str [72, 73], Item.num 10]
    (by
      intro it hit
      simp only [List.mem_cons, List.not_mem_nil, or_false] at hit
      rcases hit with rfl | rfl | rfl
      · show 0xF5 ∈ revKeyed.map Prod.fst ∧ 0xF5 ≠ 0xEA
        exact ⟨by decide, by decide⟩
      · show ∀ b ∈ [72, 73], 32 ≤ b ∧ b ≤ 126 ∧ b ≠ 34
        decide
      · show -65535 ≤ (10 : Int) ∧ (10 : Int) ≤ 65535
        decide)

end SpeccyNext
